import Mathlib

/-!
Verification of the semantic-navigation core of rnix-lsp (src/utils.rs)
against its natural-language specification.

The source text is modelled as a list of Unicode scalar values
(Lean `Char` mirrors Rust `char`), byte offsets are sums of per-character
UTF-8 lengths, and the rnix/rowan syntax tree is modelled as a concrete
tree of kinded nodes and tokens carrying absolute byte spans.
Fallible Rust operations return `Option`; a Rust panic (string slicing
out of range or off a character boundary) is modelled as `none`.
-/

/-- LSP text position: `line` and `character` as in `lsp_types::Position`
(Rust `u64`; modelled as Nat, where `usize::try_from` cannot fail). -/
structure Pos where
  line : Nat
  character : Nat
deriving DecidableEq

/-- Rust `char::len_utf8`: UTF-8 byte length of one scalar value. -/
def charUtf8Len (c : Char) : Nat :=
  if c.toNat < 0x80 then 1
  else if c.toNat < 0x800 then 2
  else if c.toNat < 0x10000 then 3
  else 4

/-- Rust `char::len_utf16`: UTF-16 code-unit length of one scalar value. -/
def charUtf16Len (c : Char) : Nat :=
  if c.toNat < 0x10000 then 1 else 2

/-- Byte length of a character list (Rust `str::len` of the UTF-8 text). -/
def byteLen (l : List Char) : Nat := (l.map charUtf8Len).sum

/-- UTF-16 code-unit length of a character list. -/
def utf16LLen (l : List Char) : Nat := (l.map charUtf16Len).sum

/-- Rust `code.split('\n')`: the list of newline-separated pieces.
Always nonempty: splitting the empty text yields one empty piece. -/
def splitNl : List Char → List (List Char)
  | [] => [[]]
  | c :: cs =>
    if c = '\n' then [] :: splitNl cs
    else
      match splitNl cs with
      | [] => [[c]]
      | l :: ls => (c :: l) :: ls

/-- Joins the tail pieces of a split, each preceded by the newline that
separated it from its predecessor. -/
def joinTail : List (List Char) → List Char
  | [] => []
  | l :: ls => '\n' :: (l ++ joinTail ls)

/-- Inverse of `splitNl`: reassembles pieces with newline separators. -/
def joinNl : List (List Char) → List Char
  | [] => []
  | l :: ls => l ++ joinTail ls

/-- The loop of `lookup_pos`: skips `line` pieces (failing when the line
iterator is exhausted), accumulating each skipped piece's byte length
plus one for its newline; on the target line, sums the UTF-8 lengths of
the first `character` CHARACTERS (Rust `chars().take(character)`,
which counts scalar values, clamped at the end of the line). -/
def lookup_aux : List (List Char) → Nat → Nat → Nat → Option Nat
  | [], _, _, _ => none
  | l :: ls, n + 1, ch, off => lookup_aux ls n ch (off + byteLen l + 1)
  | l :: _, 0, ch, off => some (off + byteLen (l.take ch))

/-- Rust `lookup_pos(code, pos)` from src/utils.rs: maps an LSP position
to a byte offset into the UTF-8 text, or fails. -/
def lookup_pos (code : List Char) (pos : Pos) : Option Nat :=
  lookup_aux (splitNl code) pos.line pos.character 0

/-- Rust string slicing `code[..offset]` used by `offset_to_pos`:
returns the character prefix of exactly `offset` bytes, or `none` when
`offset` is past the end or not on a character boundary (a Rust panic). -/
def takeBytes : List Char → Nat → Option (List Char)
  | _, 0 => some []
  | [], _ + 1 => none
  | c :: cs, n + 1 =>
    if charUtf8Len c ≤ n + 1 then (takeBytes cs (n + 1 - charUtf8Len c)).map (fun l => c :: l)
    else none

/-- The characters after the last newline of a list (the slice
`code[start_of_line..offset]` of `offset_to_pos`). -/
def afterLastNl (l : List Char) : List Char :=
  (l.reverse.takeWhile (fun c => !(c == '\n'))).reverse

/-- Rust `offset_to_pos(code, offset)` from src/utils.rs: line is the
count of newlines before the offset, character the UTF-16 length of the
slice from the line start to the offset. The Rust function slices
`code[..offset]` unchecked; the panic on an invalid offset is modelled
as `none`. -/
def offset_to_pos (code : List Char) (offset : Nat) : Option Pos :=
  (takeBytes code offset).map (fun pre =>
    { line := pre.count '\n', character := utf16LLen (afterLastNl pre) })

/-- A byte offset that is the length of a whole-character prefix of the
text: exactly the offsets valid to slice at. -/
def IsCharBoundary (code : List Char) (off : Nat) : Prop :=
  ∃ pre suf, code = pre ++ suf ∧ byteLen pre = off

/-- U+1D51E MATHEMATICAL FRAKTUR SMALL A: a supplementary-plane
character; 4 UTF-8 bytes, 2 UTF-16 units, one scalar value. -/
def suppChar : Char := Char.ofNat 0x1D51E

/-- One-line text starting with a supplementary-plane character. -/
def nonBmpText : List Char := [suppChar, 'x']

theorem charUtf8Len_pos (c : Char) : 0 < charUtf8Len c := by
  unfold charUtf8Len
  repeat' split
  all_goals omega

theorem byteLen_append (a b : List Char) : byteLen (a ++ b) = byteLen a + byteLen b := by
  simp [byteLen]

theorem splitNl_ne_nil (cs : List Char) : splitNl cs ≠ [] := by
  induction cs with
  | nil => simp [splitNl]
  | cons c cs ih =>
    simp only [splitNl]
    split
    · simp
    · cases h : splitNl cs with
      | nil => exact absurd h ih
      | cons l ls => simp

theorem joinNl_splitNl (cs : List Char) : joinNl (splitNl cs) = cs := by
  induction cs with
  | nil => simp [splitNl, joinNl, joinTail]
  | cons c cs ih =>
    simp only [splitNl]
    split
    · rename_i hc
      cases h : splitNl cs with
      | nil => exact absurd h (splitNl_ne_nil cs)
      | cons l ls =>
        rw [h] at ih
        simp [joinNl, joinTail, hc, ← ih]
    · cases h : splitNl cs with
      | nil => exact absurd h (splitNl_ne_nil cs)
      | cons l ls =>
        rw [h] at ih
        simp [joinNl, joinTail] at ih ⊢
        simp [← ih]

theorem lookup_aux_boundary (ls : List (List Char)) :
    ∀ (n ch off r : Nat), lookup_aux ls n ch off = some r →
      ∃ pre suf, joinNl ls = pre ++ suf ∧ r = off + byteLen pre := by
  induction ls with
  | nil => intro n ch off r h; simp [lookup_aux] at h
  | cons l ls ih =>
    intro n ch off r h
    cases n with
    | zero =>
      simp only [lookup_aux, Option.some.injEq] at h
      refine ⟨l.take ch, l.drop ch ++ joinTail ls, ?_, ?_⟩
      · simp only [joinNl]
        rw [← List.append_assoc, List.take_append_drop]
      · omega
    | succ n =>
      simp only [lookup_aux] at h
      obtain ⟨pre, suf, hj, hr⟩ := ih n ch (off + byteLen l + 1) r h
      cases ls with
      | nil => simp [lookup_aux] at h
      | cons l2 ls2 =>
        refine ⟨l ++ '\n' :: pre, suf, ?_, ?_⟩
        · simp only [joinNl, joinTail] at hj ⊢
          simp [hj]
        · have hnl : charUtf8Len '\n' = 1 := by decide
          rw [byteLen_append, hr]
          simp only [byteLen, List.map_cons, List.sum_cons, hnl]
          omega

theorem takeBytes_append (pre : List Char) : ∀ suf, takeBytes (pre ++ suf) (byteLen pre) = some pre := by
  induction pre with
  | nil => intro suf; simp [takeBytes, byteLen]
  | cons c pre ih =>
    intro suf
    have hc := charUtf8Len_pos c
    have hb : byteLen (c :: pre) = (charUtf8Len c - 1 + byteLen pre) + 1 := by
      simp only [byteLen, List.map_cons, List.sum_cons]
      omega
    rw [hb]
    simp only [List.cons_append, takeBytes]
    rw [if_pos (by omega)]
    have hsub : charUtf8Len c - 1 + byteLen pre + 1 - charUtf8Len c = byteLen pre := by omega
    rw [hsub]
    simp only [List.append_eq]
    rw [ih suf]
    rfl

theorem takeBytes_of_boundary (code : List Char) (off : Nat) (h : IsCharBoundary code off) :
    ∃ pre, takeBytes code off = some pre := by
  obtain ⟨pre, suf, hcode, hlen⟩ := h
  exact ⟨pre, by rw [hcode, ← hlen, takeBytes_append]⟩

/-- C10: an offset returned by `lookup_pos` is at most the byte length of
the text and is the byte length of a whole-character prefix (a UTF-8
character boundary), hence always valid for slicing the text or for
`offset_to_pos`. -/
theorem lookup_pos_offset_valid (code : List Char) (pos : Pos) (off : Nat)
    (h : lookup_pos code pos = some off) :
    off ≤ byteLen code ∧ IsCharBoundary code off := by
  unfold lookup_pos at h
  obtain ⟨pre, suf, hj, hr⟩ := lookup_aux_boundary (splitNl code) pos.line pos.character 0 off h
  rw [joinNl_splitNl] at hj
  constructor
  · rw [hj, byteLen_append]; omega
  · exact ⟨pre, suf, hj, by omega⟩

/-- Witness for C10 at the concrete text "ab", position (0,1). -/
theorem lookup_pos_offset_valid_witness :
    1 ≤ byteLen ['a', 'b'] ∧ IsCharBoundary ['a', 'b'] 1 :=
  lookup_pos_offset_valid ['a', 'b'] ⟨0, 1⟩ 1 rfl

/-- C7 (amended): `offset_to_pos` returns a Position for every offset
that is a UTF-8 character-boundary byte offset of the text; offsets past
the end or inside a character make the Rust code panic (modelled `none`),
refuting the claim that every offset is accepted. -/
theorem offset_to_pos_total_on_boundaries (code : List Char) (off : Nat)
    (h : IsCharBoundary code off) : (offset_to_pos code off).isSome := by
  obtain ⟨pre, hpre⟩ := takeBytes_of_boundary code off h
  simp [offset_to_pos, hpre]

/-- Witness for C7 (amended) at the concrete text "ab", offset 1. -/
theorem offset_to_pos_total_on_boundaries_witness : (offset_to_pos ['a', 'b'] 1).isSome :=
  offset_to_pos_total_on_boundaries ['a', 'b'] 1 ⟨['a'], ['b'], rfl, by decide⟩

/-- C7 counterexample: offset 2 is past the end of the one-byte text "a",
and `offset_to_pos` does not return a Position there (Rust panics on the
slice `code[..2]`), contradicting the claim that it returns a Position
for every byte offset including out-of-range ones. -/
theorem offset_to_pos_oob_cex : offset_to_pos ['a'] 2 = none := by decide

theorem lookup_aux_none (ls : List (List Char)) :
    ∀ (n ch off : Nat), lookup_aux ls n ch off = none ↔ ls.length ≤ n := by
  induction ls with
  | nil => intro n ch off; simp [lookup_aux]
  | cons l ls ih =>
    intro n ch off
    cases n with
    | zero => simp [lookup_aux]
    | succ n => simp [lookup_aux, ih n ch (off + byteLen l + 1)]

/-- C6 (amended): `lookup_pos` returns `none` exactly when `pos.line` is
not a valid line index (at least the number of newline-separated pieces
of the text); an oversized `pos.character` never causes failure, because
the character scan clamps at the end of the line. -/
theorem lookup_pos_none_iff_line_oob (code : List Char) (pos : Pos) :
    lookup_pos code pos = none ↔ (splitNl code).length ≤ pos.line :=
  lookup_aux_none (splitNl code) pos.line pos.character 0

/-- C6 counterexample: the single line "a" has 1 UTF-16 unit, fewer than
position character 5, yet `lookup_pos` succeeds (with the clamped
end-of-line offset 1) instead of returning `none` as claimed. -/
theorem lookup_pos_clamps_character_cex : lookup_pos ['a'] ⟨0, 5⟩ = some 1 := by decide

/-- C1: `lookup_pos` consumes `pos.character` in Unicode scalar values,
not UTF-16 code units. On the line made of U+1D51E (4 UTF-8 bytes,
2 UTF-16 units) followed by a one-byte character, position character 2
yields byte offset 5 — the claim requires offset 4, the boundary right
after the supplementary-plane character. -/
theorem lookup_pos_char_counting_at_nonbmp :
    charUtf8Len suppChar = 4 ∧ charUtf16Len suppChar = 2 ∧
      lookup_pos nonBmpText ⟨0, 2⟩ = some 5 := by decide

/-- C3: the round trip fails on text containing a supplementary-plane
character: position (0,2) is within bounds (the line has 3 UTF-16
units), `lookup_pos` maps it to byte offset 5, and `offset_to_pos` maps
5 back to (0,3), not (0,2). -/
theorem round_trip_breaks_at_nonbmp :
    utf16LLen nonBmpText = 3 ∧ lookup_pos nonBmpText ⟨0, 2⟩ = some 5 ∧
      offset_to_pos nonBmpText 5 = some ⟨0, 3⟩ := by decide

/-- Syntax kinds of the rnix tree, restricted to the kinds src/utils.rs
dispatches on; `other` stands for every remaining node kind and
`identTok`, `dotTok`, `recTok`, `otherTok` for token kinds. -/
inductive SKind where
  | ident
  | key
  | entry
  | select
  | letIn
  | legacyLet
  | attrSet
  | lambda
  | pattern
  | patEntry
  | root
  | other
  | identTok
  | dotTok
  | recTok
  | otherTok
deriving DecidableEq

/-- A rowan syntax element: a token (leaf, carrying its text) or a node
with children, both carrying their absolute byte span in the source. -/
inductive STree where
  | leaf (kind : SKind) (text : String) (span : Nat × Nat)
  | node (kind : SKind) (span : Nat × Nat) (children : List STree)

mutual

/-- Number of elements of a tree, an upper bound for any chain of nested
children; used as fuel for the selection-chain walk of `ident_at`. -/
def streeSize : STree → Nat
  | STree.leaf _ _ _ => 1
  | STree.node _ _ cs => 1 + streeListSize cs

/-- Sum of the sizes of a list of trees. -/
def streeListSize : List STree → Nat
  | [] => 0
  | t :: ts => streeSize t + streeListSize ts

end

mutual

/-- Structural equality of syntax elements; in a fixed parsed tree with
absolute spans this coincides with rowan node identity (`==` on
`SyntaxNode`), since distinct positions in one tree never carry the
same kind, span, text and children. -/
def streeBeq : STree → STree → Bool
  | STree.leaf k t r, STree.leaf k2 t2 r2 =>
    decide (k = k2) && decide (t = t2) && decide (r = r2)
  | STree.node k r cs, STree.node k2 r2 cs2 =>
    decide (k = k2) && decide (r = r2) && streeListBeq cs cs2
  | _, _ => false

/-- Pointwise `streeBeq` on lists of children. -/
def streeListBeq : List STree → List STree → Bool
  | [], [] => true
  | a :: as2, b :: bs => streeBeq a b && streeListBeq as2 bs
  | _, _ => false

end

instance : BEq STree := ⟨streeBeq⟩

/-- The kind of a syntax element. -/
def kindOf : STree → SKind
  | STree.leaf k _ _ => k
  | STree.node k _ _ => k

/-- The byte span of a syntax element (`text_range`). -/
def spanOf : STree → Nat × Nat
  | STree.leaf _ _ sp => sp
  | STree.node _ sp _ => sp

/-- Whether the element is a node (not a token). -/
def isNodeC : STree → Bool
  | STree.leaf _ _ _ => false
  | STree.node _ _ _ => true

/-- All children, tokens included (`children_with_tokens`). -/
def childrenOf : STree → List STree
  | STree.leaf _ _ _ => []
  | STree.node _ _ cs => cs

/-- Child nodes only (rowan `SyntaxNode::children`). -/
def nodeChildren (t : STree) : List STree := (childrenOf t).filter isNodeC

/-- Text of the first token under the element, the string a typed
`Ident` view renders with `as_str`. -/
def firstTokenText (t : STree) : String :=
  match t with
  | STree.leaf _ tx _ => tx
  | STree.node _ _ cs =>
    (cs.findSome? (fun c =>
      match c with
      | STree.leaf _ tx _ => some tx
      | STree.node _ _ _ => none)).getD ""

/-- Rust `Ident::cast(node)` followed by `as_str`: succeeds exactly on
identifier nodes. -/
def identCast (t : STree) : Option String :=
  if isNodeC t = true ∧ kindOf t = SKind.ident then some (firstTokenText t) else none

/-- A position in the tree: the list of child indices from the root
(indices into the full `children_with_tokens` list). -/
abbrev TPath := List Nat

/-- The element a path points at if the path is valid. -/
def nodeAtPath : STree → TPath → Option STree
  | t, [] => some t
  | STree.leaf _ _ _, _ :: _ => none
  | STree.node _ _ cs, i :: p =>
    match cs.get? i with
    | some c => nodeAtPath c p
    | none => none

mutual

/-- All tokens of the tree in document order, each with its path. -/
def leafPaths : STree → List (TPath × STree)
  | STree.leaf k tx sp => [([], STree.leaf k tx sp)]
  | STree.node _ _ cs => leafPathsList 0 cs

/-- Tokens with paths for a list of children starting at index `i`. -/
def leafPathsList : Nat → List STree → List (TPath × STree)
  | _, [] => []
  | i, c :: cs =>
    (leafPaths c).map (fun pl => (i :: pl.1, pl.2)) ++ leafPathsList (i + 1) cs

end

/-- Whether a token touches a byte offset, rowan style: the closed
interval from its start to its end contains the offset. -/
def touches (off : Nat) (t : STree) : Bool :=
  match t with
  | STree.leaf _ _ sp => decide (sp.1 ≤ off) && decide (off ≤ sp.2)
  | STree.node _ _ _ => false

/-- Result of rowan `token_at_offset`: no token, a single token, or the
two adjacent tokens around a boundary offset (left first). -/
inductive TokAt where
  | noTok : TokAt
  | single : TPath → TokAt
  | between : TPath → TPath → TokAt

/-- Rowan `token_at_offset` on the modelled tree. -/
def tokenAtOffset (root : STree) (off : Nat) : TokAt :=
  match (leafPaths root).filter (fun pl => touches off pl.2) with
  | [] => TokAt.noTok
  | [pl] => TokAt.single pl.1
  | pl1 :: pl2 :: _ => TokAt.between pl1.1 pl2.1

/-- Rust `TokenAtOffset::left_biased`. -/
def leftBiased : TokAt → Option TPath
  | TokAt.noTok => none
  | TokAt.single p => some p
  | TokAt.between l _ => some l

/-- Binding record `Var` from src/utils.rs: originating file handle,
the node introducing the scope, the name node, and the optional bound
value node (absent for function-parameter bindings). -/
structure Var where
  file : String
  set : STree
  key : STree
  value : Option STree

/-- The scope mapping, Rust `HashMap<String, Var>`; keys stay unique
because every insertion is guarded by `contains_key`. -/
abbrev Scope := List (String × Var)

/-- Rust `scope.contains_key(name)`. -/
def scopeContains (s : Scope) (n : String) : Bool :=
  s.any (fun pr => pr.1 == n)

/-- Lookup of a name in the scope mapping. -/
def lookupScope (s : Scope) (n : String) : Option Var :=
  (s.find? (fun pr => pr.1 == n)).map (fun pr => pr.2)

/-- Lookup through the optional result of `scope_for`. -/
def lookupVar (os : Option Scope) (n : String) : Option Var :=
  os.bind (fun s => lookupScope s n)

/-- Rust `EntryHolder::entries`: the child nodes that are attribute
entries (`key = value;`). -/
def entriesOf (t : STree) : List STree :=
  (nodeChildren t).filter (fun c => kindOf c == SKind.entry)

/-- Rust `Entry::key`: the first child node that casts to `Key`. -/
def entryKey (e : STree) : Option STree :=
  (nodeChildren e).find? (fun c => kindOf c == SKind.key)

/-- Rust `Entry::value`: the second child node of the entry. -/
def entryValue (e : STree) : Option STree :=
  (nodeChildren e).get? 1

/-- Rust `AttrSet::recursive`: the set carries a `rec` token. -/
def isRecursive (t : STree) : Bool :=
  (childrenOf t).any (fun c => kindOf c == SKind.recTok)

/-- First segment of a key path cast to an identifier
(Rust `attr.path().next().and_then(Ident::cast)`), returning the
identifier node together with its name. -/
def keyFirstIdent (k : STree) : Option (STree × String) :=
  (nodeChildren k).head?.bind (fun c => (identCast c).map (fun nm => (c, nm)))

/-- Rust `Pattern::entries`: child nodes of kind pattern-entry. -/
def patEntriesOf (t : STree) : List STree :=
  (nodeChildren t).filter (fun c => kindOf c == SKind.patEntry)

/-- Rust `PatEntry::name`: the first child node that casts to `Ident`. -/
def patEntryName (pe : STree) : Option (STree × String) :=
  (nodeChildren pe).findSome? (fun c => (identCast c).map (fun nm => (c, nm)))

/-- Rust `populate` from src/utils.rs, on the entry list of one binding
set. The `?` on a missing entry key or missing entry value returns from
`populate` early: the scope built so far is kept (the caller discards
the `Option<()>`), but the remaining entries of this set are skipped. -/
def populate (file : String) (setN : STree) : List STree → Scope → Scope
  | [], s => s
  | e :: rest, s =>
    match entryKey e with
    | none => s
    | some k =>
      match keyFirstIdent k with
      | none => populate file setN rest s
      | some (idN, nm) =>
        if scopeContains s nm then populate file setN rest s
        else
          match entryValue e with
          | none => s
          | some v => populate file setN rest ((nm, ⟨file, setN, idN, some v⟩) :: s)

/-- The pattern-parameter loop of `scope_for`: `entry.name()?` sits in
the body of `scope_for` itself, so a pattern entry without a name aborts
the whole scope query with `none`. -/
def patGo (file : String) (lam : STree) : List STree → Scope → Option Scope
  | [], s => some s
  | pe :: rest, s =>
    match patEntryName pe with
    | none => none
    | some (idN, nm) =>
      patGo file lam rest
        (if scopeContains s nm then s else (nm, ⟨file, lam, idN, none⟩) :: s)

/-- The lambda arm of `scope_for`: `lambda.arg()?` aborts the whole
scope query when the lambda has no parameter node. -/
def scopeLambda (file : String) (s : Scope) (t : STree) : Option Scope :=
  match (nodeChildren t).get? 0 with
  | none => none
  | some arg =>
    if kindOf arg = SKind.ident then
      some (if scopeContains s (firstTokenText arg) then s
            else (firstTokenText arg, ⟨file, t, arg, none⟩) :: s)
    else if kindOf arg = SKind.pattern then patGo file t (patEntriesOf arg) s
    else some s

/-- One iteration of the `while` loop of `scope_for`: dispatch on the
kind of the visited node (`ParsedType::try_from`). -/
def scopeStep (file : String) (s : Scope) (t : STree) : Option Scope :=
  if isNodeC t = false then some s
  else if kindOf t = SKind.letIn then some (populate file t (entriesOf t) s)
  else if kindOf t = SKind.legacyLet then some (populate file t (entriesOf t) s)
  else if kindOf t = SKind.attrSet then
    some (if isRecursive t then populate file t (entriesOf t) s else s)
  else if kindOf t = SKind.lambda then scopeLambda file s t
  else some s

/-- The full upward walk of `scope_for` over the chain of a node and its
ancestors, threading the scope. -/
def scopeGo (file : String) : List STree → Scope → Option Scope
  | [], s => some s
  | t :: rest, s =>
    match scopeStep file s t with
    | none => none
    | some s2 => scopeGo file rest s2

/-- The paths of a node and all its ancestors, innermost first: the
descending-length prefixes of the path. -/
def upPaths (p : TPath) : List TPath :=
  (List.range (p.length + 1)).reverse.map (fun k => p.take k)

/-- The node at `p` followed by its ancestors up to the root: the chain
`scope_for` walks via `node.parent()`. -/
def chainOf (root : STree) (p : TPath) : List STree :=
  (upPaths p).filterMap (nodeAtPath root)

/-- Rust `scope_for(file, node)` from src/utils.rs, with the node given
by its path into the tree. -/
def scope_for (file : String) (root : STree) (p : TPath) : Option Scope :=
  scopeGo file (chainOf root p) []

/-- A node is harmless for `scope_for`: either it is not a lambda node,
or it is a lambda whose parameter exists and, when the parameter is a
destructuring pattern, all pattern entries carry a name. Exactly the
nodes whose visit cannot abort the walk. -/
def lambdaOk (t : STree) : Bool :=
  if isNodeC t = true ∧ kindOf t = SKind.lambda then
    match (nodeChildren t).get? 0 with
    | none => false
    | some arg =>
      if kindOf arg = SKind.pattern then
        (patEntriesOf arg).all (fun pe => (patEntryName pe).isSome)
      else true
  else true

theorem patGo_isSome (file : String) (lam : STree) (l : List STree) :
    ∀ s : Scope, (patGo file lam l s).isSome = l.all (fun pe => (patEntryName pe).isSome) := by
  induction l with
  | nil => intro s; simp [patGo]
  | cons pe rest ih =>
    intro s
    cases h : patEntryName pe with
    | none => simp [patGo, h]
    | some pr =>
      obtain ⟨idN, nm⟩ := pr
      simp [patGo, h, ih]

theorem scopeLambda_isSome (file : String) (s : Scope) (t : STree) :
    (scopeLambda file s t).isSome =
      (match (nodeChildren t).get? 0 with
       | none => false
       | some arg =>
         if kindOf arg = SKind.pattern then
           (patEntriesOf arg).all (fun pe => (patEntryName pe).isSome)
         else true) := by
  unfold scopeLambda
  cases hc : (nodeChildren t).get? 0 with
  | none => simp
  | some arg =>
    by_cases hi : kindOf arg = SKind.ident
    · have hp : ¬ kindOf arg = SKind.pattern := by rw [hi]; simp
      simp [hi, hp]
    · by_cases hp : kindOf arg = SKind.pattern
      · simp [hi, hp, patGo_isSome]
      · simp [hi, hp]

theorem scopeStep_isSome (file : String) (s : Scope) (t : STree) :
    (scopeStep file s t).isSome = lambdaOk t := by
  cases t with
  | leaf k tx sp => simp [scopeStep, lambdaOk, isNodeC, kindOf]
  | node k sp cs =>
    cases k with
    | lambda =>
      have hstep : scopeStep file s (STree.node SKind.lambda sp cs) =
          scopeLambda file s (STree.node SKind.lambda sp cs) := by
        simp [scopeStep, isNodeC, kindOf]
      rw [hstep, scopeLambda_isSome]
      simp only [lambdaOk]
      rw [if_pos (⟨rfl, rfl⟩ : isNodeC (STree.node SKind.lambda sp cs) = true ∧
        kindOf (STree.node SKind.lambda sp cs) = SKind.lambda)]
    | ident => simp [scopeStep, lambdaOk, isNodeC, kindOf]
    | key => simp [scopeStep, lambdaOk, isNodeC, kindOf]
    | entry => simp [scopeStep, lambdaOk, isNodeC, kindOf]
    | select => simp [scopeStep, lambdaOk, isNodeC, kindOf]
    | letIn => simp [scopeStep, lambdaOk, isNodeC, kindOf]
    | legacyLet => simp [scopeStep, lambdaOk, isNodeC, kindOf]
    | attrSet => simp [scopeStep, lambdaOk, isNodeC, kindOf]
    | pattern => simp [scopeStep, lambdaOk, isNodeC, kindOf]
    | patEntry => simp [scopeStep, lambdaOk, isNodeC, kindOf]
    | root => simp [scopeStep, lambdaOk, isNodeC, kindOf]
    | other => simp [scopeStep, lambdaOk, isNodeC, kindOf]
    | identTok => simp [scopeStep, lambdaOk, isNodeC, kindOf]
    | dotTok => simp [scopeStep, lambdaOk, isNodeC, kindOf]
    | recTok => simp [scopeStep, lambdaOk, isNodeC, kindOf]
    | otherTok => simp [scopeStep, lambdaOk, isNodeC, kindOf]

theorem scopeGo_isSome (file : String) (l : List STree) :
    ∀ s : Scope, (scopeGo file l s).isSome = l.all lambdaOk := by
  induction l with
  | nil => intro s; simp [scopeGo]
  | cons t rest ih =>
    intro s
    simp only [scopeGo, List.all_cons]
    cases h : scopeStep file s t with
    | none =>
      have hst := scopeStep_isSome file s t
      rw [h] at hst
      simp [← hst]
    | some s2 =>
      have hst := scopeStep_isSome file s t
      rw [h] at hst
      simp [← hst, ih s2]

/-- C2 (amended): `scope_for` succeeds exactly when every lambda on the
walked chain has a parameter node and, for destructuring patterns, every
pattern entry has a name; a lambda without a parameter or an unnamed
pattern entry aborts the whole query with `none`. (A malformed attribute
entry, by contrast, only stops the remaining entries of its own binding
set while the upward walk continues.) -/
theorem scope_for_isSome_iff_lambdas_ok (file : String) (root : STree) (p : TPath) :
    (scope_for file root p).isSome = (chainOf root p).all lambdaOk :=
  scopeGo_isSome file (chainOf root p) []

/-- A lambda node with no children: `lambda.arg()` yields nothing. -/
def armlessLambda : STree := STree.node SKind.lambda (0, 1) []

/-- C2 counterexample: `scope_for` on a lambda node without a parameter
returns `none` — the `?` on `lambda.arg()` aborts the whole walk —
refuting the claim that a scope mapping is returned for every file and
node with malformed elements merely contributing nothing. -/
theorem scope_for_armless_lambda_none : scope_for "file" armlessLambda [] = none := rfl

theorem lookupScope_isSome_contains (s : Scope) (n : String) :
    (lookupScope s n).isSome = scopeContains s n := by
  induction s with
  | nil => simp [lookupScope, scopeContains]
  | cons pr rest ih =>
    by_cases h : (pr.1 == n) = true
    · simp [lookupScope, scopeContains, List.find?_cons_of_pos, h]
    · have h2 : (pr.1 == n) = false := by revert h; cases pr.1 == n <;> simp
      simp only [lookupScope, scopeContains] at ih ⊢
      rw [List.find?_cons_of_neg _ (by simp [h2])]
      simp [List.any_cons, h2, ih]

theorem lookupScope_insert_preserve (s : Scope) (n k : String) (v w : Var)
    (hn : lookupScope s n = some v) (hk : scopeContains s k = false) :
    lookupScope ((k, w) :: s) n = some v := by
  have hne : (k == n) = false := by
    by_contra hx
    have hkn : (k == n) = true := by revert hx; cases k == n <;> simp
    have hkeq : k = n := by simpa using hkn
    subst hkeq
    have : (lookupScope s k).isSome = true := by rw [hn]; rfl
    rw [lookupScope_isSome_contains, hk] at this
    exact Bool.false_ne_true this
  unfold lookupScope
  rw [List.find?_cons_of_neg _ (by simpa using hne)]
  exact hn

theorem populate_preserve (file : String) (setN : STree) (l : List STree) :
    ∀ (s : Scope) (n : String) (v : Var), lookupScope s n = some v →
      lookupScope (populate file setN l s) n = some v := by
  induction l with
  | nil => intro s n v h; simpa [populate] using h
  | cons e rest ih =>
    intro s n v h
    unfold populate
    split
    · exact h
    · split
      · exact ih s n v h
      · rename_i idN nm hki
        by_cases hc : scopeContains s nm = true
        · rw [if_pos hc]
          exact ih s n v h
        · have hc2 : scopeContains s nm = false := by
            revert hc; cases scopeContains s nm <;> simp
          rw [if_neg hc]
          split
          · exact h
          · exact ih _ n v (lookupScope_insert_preserve s n nm v _ h hc2)

theorem patGo_preserve (file : String) (lam : STree) (l : List STree) :
    ∀ (s s2 : Scope) (n : String) (v : Var), lookupScope s n = some v →
      patGo file lam l s = some s2 → lookupScope s2 n = some v := by
  induction l with
  | nil =>
    intro s s2 n v h hp
    simp only [patGo, Option.some.injEq] at hp
    rw [← hp]; exact h
  | cons pe rest ih =>
    intro s s2 n v h hp
    unfold patGo at hp
    split at hp
    · exact absurd hp (by simp)
    · rename_i idN nm hn
      by_cases hc : scopeContains s nm = true
      · rw [if_pos hc] at hp
        exact ih s s2 n v h hp
      · have hc2 : scopeContains s nm = false := by
          revert hc; cases scopeContains s nm <;> simp
        rw [if_neg hc] at hp
        exact ih _ s2 n v (lookupScope_insert_preserve s n nm v _ h hc2) hp

theorem scopeLambda_preserve (file : String) (s s2 : Scope) (t : STree) (n : String) (v : Var)
    (h : lookupScope s n = some v) (hs : scopeLambda file s t = some s2) :
    lookupScope s2 n = some v := by
  unfold scopeLambda at hs
  split at hs
  · exact absurd hs (by simp)
  · rename_i arg hc
    by_cases hi : kindOf arg = SKind.ident
    · rw [if_pos hi] at hs
      have hs2 := Option.some.inj hs
      rw [← hs2]
      by_cases hcc : scopeContains s (firstTokenText arg) = true
      · rw [if_pos hcc]; exact h
      · have hcc2 : scopeContains s (firstTokenText arg) = false := by
          revert hcc; cases scopeContains s (firstTokenText arg) <;> simp
        rw [if_neg hcc]
        exact lookupScope_insert_preserve s n _ v _ h hcc2
    · rw [if_neg hi] at hs
      by_cases hp : kindOf arg = SKind.pattern
      · rw [if_pos hp] at hs
        exact patGo_preserve file t (patEntriesOf arg) s s2 n v h hs
      · rw [if_neg hp] at hs
        have hs2 := Option.some.inj hs
        rw [← hs2]; exact h

theorem scopeStep_preserve (file : String) (s s2 : Scope) (t : STree) (n : String) (v : Var)
    (h : lookupScope s n = some v) (hs : scopeStep file s t = some s2) :
    lookupScope s2 n = some v := by
  unfold scopeStep at hs
  split at hs
  · rw [← Option.some.inj hs]; exact h
  · split at hs
    · rw [← Option.some.inj hs]
      exact populate_preserve file t (entriesOf t) s n v h
    · split at hs
      · rw [← Option.some.inj hs]
        exact populate_preserve file t (entriesOf t) s n v h
      · split at hs
        · rw [← Option.some.inj hs]
          by_cases hr : isRecursive t = true
          · rw [if_pos hr]
            exact populate_preserve file t (entriesOf t) s n v h
          · rw [if_neg hr]; exact h
        · split at hs
          · exact scopeLambda_preserve file s s2 t n v h hs
          · rw [← Option.some.inj hs]; exact h

theorem scopeGo_preserve (file : String) (l : List STree) :
    ∀ (s s2 : Scope) (n : String) (v : Var), lookupScope s n = some v →
      scopeGo file l s = some s2 → lookupScope s2 n = some v := by
  induction l with
  | nil =>
    intro s s2 n v h hg
    simp only [scopeGo, Option.some.injEq] at hg
    rw [← hg]; exact h
  | cons t rest ih =>
    intro s s2 n v h hg
    unfold scopeGo at hg
    cases hstep : scopeStep file s t with
    | none => rw [hstep] at hg; exact absurd hg (by simp)
    | some smid =>
      rw [hstep] at hg
      exact ih smid s2 n v (scopeStep_preserve file s smid t n v h hstep) hg

/-- Concrete tree of `let a = 1; in let a = 2; in a` as parsed by rnix:
two nested let-in nodes, each with one entry binding `a`, the inner body
being the use of `a`. -/
def shTokA1 : STree := STree.leaf SKind.identTok "a" (4, 5)

/-- Identifier node of the outer binding name `a`. -/
def shIdentA1 : STree := STree.node SKind.ident (4, 5) [shTokA1]

/-- Key node of the outer entry. -/
def shKey1 : STree := STree.node SKind.key (4, 5) [shIdentA1]

/-- Value node `1` of the outer entry. -/
def shLit1 : STree := STree.node SKind.other (8, 9) [STree.leaf SKind.otherTok "1" (8, 9)]

/-- Outer entry `a = 1;`. -/
def shEntry1 : STree := STree.node SKind.entry (4, 10) [shKey1, shLit1]

/-- Token of the inner binding name `a`. -/
def shTokA2 : STree := STree.leaf SKind.identTok "a" (18, 19)

/-- Identifier node of the inner binding name `a`. -/
def shIdentA2 : STree := STree.node SKind.ident (18, 19) [shTokA2]

/-- Key node of the inner entry. -/
def shKey2 : STree := STree.node SKind.key (18, 19) [shIdentA2]

/-- Value node `2` of the inner entry. -/
def shLit2 : STree := STree.node SKind.other (22, 23) [STree.leaf SKind.otherTok "2" (22, 23)]

/-- Inner entry `a = 2;`. -/
def shEntry2 : STree := STree.node SKind.entry (18, 24) [shKey2, shLit2]

/-- The innermost use of `a` (the body of the inner let). -/
def shUseA : STree := STree.node SKind.ident (28, 29) [STree.leaf SKind.identTok "a" (28, 29)]

/-- Inner `let a = 2; in a`. -/
def shInnerLet : STree := STree.node SKind.letIn (14, 29) [shEntry2, shUseA]

/-- Outer `let a = 1; in ...`. -/
def shOuterLet : STree := STree.node SKind.letIn (0, 29) [shEntry1, shInnerLet]

/-- Root node of the shadowing example. -/
def shRoot : STree := STree.node SKind.root (0, 29) [shOuterLet]

/-- The binding record the walk must retain for `a`: introduced by the
inner let, with the value node of `2`. -/
def shadowVarA : Var := ⟨"file", shInnerLet, shIdentA2, some shLit2⟩

/-- C5: scope construction is first-write-wins. First conjunct: during
the upward walk (`scopeGo`, the loop of `scope_for`), a name already
present in the scope is never overwritten — its binding survives any
further steps. Second conjunct: on `let a = 1; in let a = 2; in a`,
the scope at the innermost use of `a` maps `a` to the Var of the inner
binding, whose value node is the literal `2`, not `1`. -/
theorem scope_first_write_wins :
    (∀ (file : String) (l : List STree) (s s2 : Scope) (n : String) (v : Var),
        lookupScope s n = some v → scopeGo file l s = some s2 →
        lookupScope s2 n = some v)
    ∧ lookupVar (scope_for "file" shRoot [0, 1, 1]) "a" = some shadowVarA :=
  ⟨fun file l s s2 n v h hg => scopeGo_preserve file l s s2 n v h hg, rfl⟩

/-- Witness for C5: a scope already holding `a` keeps its binding across
an (empty) remainder of the walk. -/
theorem scope_first_write_wins_witness :
    lookupScope [("a", shadowVarA)] "a" = some shadowVarA :=
  scope_first_write_wins.1 "file" [] [("a", shadowVarA)] [("a", shadowVarA)] "a" shadowVarA
    rfl rfl

/-- A node that populates the scope through attribute entries: a let-in
block, a legacy-let block, or a recursive attribute set. -/
def fromEntryHolder (t : STree) : Bool :=
  isNodeC t && (decide (kindOf t = SKind.letIn) || decide (kindOf t = SKind.legacyLet) ||
    (decide (kindOf t = SKind.attrSet) && isRecursive t))

/-- A lambda node. -/
def isLambdaNode (t : STree) : Bool :=
  isNodeC t && decide (kindOf t = SKind.lambda)

/-- Shape invariant of every Var placed by the walk: value present and
scope node an entry holder, or value absent and scope node a lambda. -/
def varOk (v : Var) : Bool :=
  (v.value.isSome && fromEntryHolder v.set) || (v.value.isNone && isLambdaNode v.set)

/-- All Vars of a scope satisfy `varOk`. -/
def scopeOk (s : Scope) : Bool := s.all (fun pr => varOk pr.2)

theorem fromEntryHolder_not_lambda (t : STree) (h : fromEntryHolder t = true) :
    isLambdaNode t = false := by
  cases t with
  | leaf k tx sp => simp [fromEntryHolder, isNodeC] at h
  | node k sp cs =>
    simp only [fromEntryHolder, isNodeC, kindOf, Bool.true_and] at h
    simp only [isLambdaNode, isNodeC, kindOf, Bool.true_and]
    simp only [Bool.or_eq_true, Bool.and_eq_true, decide_eq_true_eq] at h
    rcases h with (h | h) | ⟨h, _⟩ <;> subst h <;> simp

theorem isLambdaNode_not_entry (t : STree) (h : isLambdaNode t = true) :
    fromEntryHolder t = false := by
  cases t with
  | leaf k tx sp => simp [isLambdaNode, isNodeC] at h
  | node k sp cs =>
    simp only [isLambdaNode, isNodeC, kindOf, Bool.true_and, decide_eq_true_eq] at h
    subst h
    simp [fromEntryHolder, isNodeC, kindOf]

theorem scopeOk_insert (s : Scope) (nm : String) (v : Var)
    (hs : scopeOk s = true) (hv : varOk v = true) : scopeOk ((nm, v) :: s) = true := by
  simp only [scopeOk, List.all_cons] at hs ⊢
  simp [hs, hv]

theorem populate_ok (file : String) (setN : STree) (hset : fromEntryHolder setN = true)
    (l : List STree) :
    ∀ s : Scope, scopeOk s = true → scopeOk (populate file setN l s) = true := by
  induction l with
  | nil => intro s h; simpa [populate] using h
  | cons e rest ih =>
    intro s h
    unfold populate
    split
    · exact h
    · split
      · exact ih s h
      · rename_i idN nm hki
        by_cases hc : scopeContains s nm = true
        · rw [if_pos hc]
          exact ih s h
        · rw [if_neg hc]
          split
          · exact h
          · refine ih _ (scopeOk_insert s nm _ h ?_)
            simp [varOk, hset]

theorem patGo_ok (file : String) (lam : STree) (hlam : isLambdaNode lam = true)
    (l : List STree) :
    ∀ (s s2 : Scope), scopeOk s = true → patGo file lam l s = some s2 →
      scopeOk s2 = true := by
  induction l with
  | nil =>
    intro s s2 h hp
    simp only [patGo, Option.some.injEq] at hp
    rw [← hp]; exact h
  | cons pe rest ih =>
    intro s s2 h hp
    unfold patGo at hp
    split at hp
    · exact absurd hp (by simp)
    · rename_i idN nm hn
      by_cases hc : scopeContains s nm = true
      · rw [if_pos hc] at hp
        exact ih s s2 h hp
      · rw [if_neg hc] at hp
        refine ih _ s2 (scopeOk_insert s nm _ h ?_) hp
        simp [varOk, hlam]

theorem scopeLambda_ok (file : String) (s s2 : Scope) (t : STree)
    (hlam : isLambdaNode t = true) (h : scopeOk s = true)
    (hs : scopeLambda file s t = some s2) : scopeOk s2 = true := by
  unfold scopeLambda at hs
  split at hs
  · exact absurd hs (by simp)
  · rename_i arg hc
    by_cases hi : kindOf arg = SKind.ident
    · rw [if_pos hi] at hs
      rw [← Option.some.inj hs]
      by_cases hcc : scopeContains s (firstTokenText arg) = true
      · rw [if_pos hcc]; exact h
      · rw [if_neg hcc]
        refine scopeOk_insert s _ _ h ?_
        simp [varOk, hlam]
    · rw [if_neg hi] at hs
      by_cases hp : kindOf arg = SKind.pattern
      · rw [if_pos hp] at hs
        exact patGo_ok file t hlam (patEntriesOf arg) s s2 h hs
      · rw [if_neg hp] at hs
        rw [← Option.some.inj hs]; exact h

theorem scopeStep_ok (file : String) (s s2 : Scope) (t : STree)
    (h : scopeOk s = true) (hs : scopeStep file s t = some s2) : scopeOk s2 = true := by
  unfold scopeStep at hs
  split at hs
  · rw [← Option.some.inj hs]; exact h
  · rename_i hnode
    have hnode2 : isNodeC t = true := by revert hnode; cases isNodeC t <;> simp
    split at hs
    · rename_i hkind
      rw [← Option.some.inj hs]
      exact populate_ok file t (by simp [fromEntryHolder, hnode2, hkind]) (entriesOf t) s h
    · split at hs
      · rename_i hkind
        rw [← Option.some.inj hs]
        exact populate_ok file t (by simp [fromEntryHolder, hnode2, hkind]) (entriesOf t) s h
      · split at hs
        · rename_i hkind
          rw [← Option.some.inj hs]
          by_cases hr : isRecursive t = true
          · rw [if_pos hr]
            exact populate_ok file t (by simp [fromEntryHolder, hnode2, hkind, hr])
              (entriesOf t) s h
          · rw [if_neg hr]; exact h
        · split at hs
          · rename_i hkind
            exact scopeLambda_ok file s s2 t (by simp [isLambdaNode, hnode2, hkind]) h hs
          · rw [← Option.some.inj hs]; exact h

theorem scopeGo_ok (file : String) (l : List STree) :
    ∀ (s s2 : Scope), scopeOk s = true → scopeGo file l s = some s2 →
      scopeOk s2 = true := by
  induction l with
  | nil =>
    intro s s2 h hg
    simp only [scopeGo, Option.some.injEq] at hg
    rw [← hg]; exact h
  | cons t rest ih =>
    intro s s2 h hg
    unfold scopeGo at hg
    cases hstep : scopeStep file s t with
    | none => rw [hstep] at hg; exact absurd hg (by simp)
    | some smid =>
      rw [hstep] at hg
      exact ih smid s2 (scopeStep_ok file s smid t h hstep) hg

theorem lookupScope_mem (s : Scope) (n : String) (v : Var)
    (h : lookupScope s n = some v) : ∃ pr ∈ s, pr.2 = v := by
  unfold lookupScope at h
  cases hf : List.find? (fun pr => pr.1 == n) s with
  | none => rw [hf] at h; exact absurd h (by simp)
  | some pr =>
    rw [hf] at h
    simp only [Option.map_some', Option.some.injEq] at h
    exact ⟨pr, List.mem_of_find?_eq_some hf, h⟩

/-- Token of the parameter `x` of the lambda `x: x + 1`. -/
def xTokParam : STree := STree.leaf SKind.identTok "x" (0, 1)

/-- Identifier node of the lambda parameter `x`. -/
def xParamIdent : STree := STree.node SKind.ident (0, 1) [xTokParam]

/-- Identifier node of the use of `x` in the body. -/
def xUseIdent : STree := STree.node SKind.ident (3, 4) [STree.leaf SKind.identTok "x" (3, 4)]

/-- Literal `1` in the body. -/
def xLit : STree := STree.node SKind.other (7, 8) [STree.leaf SKind.otherTok "1" (7, 8)]

/-- Body node `x + 1` of the lambda. -/
def xBody : STree := STree.node SKind.other (3, 8) [xUseIdent, xLit]

/-- The lambda `x: x + 1`. -/
def xLam : STree := STree.node SKind.lambda (0, 8) [xParamIdent, xBody]

/-- Root node of the lambda example. -/
def xRoot : STree := STree.node SKind.root (0, 8) [xLam]

/-- The binding record the lambda parameter introduces: no value node. -/
def xVar : Var := ⟨"file", xLam, xParamIdent, none⟩

/-- C9: every Var a successful `scope_for` places in the scope has a
present value exactly when its scope node is an entry holder (let-in,
legacy-let, or recursive attribute set) and an absent value exactly when
its scope node is a lambda (parameter binding). Second conjunct: for
`x: x + 1`, the scope at the body maps `x` to a Var with absent value. -/
theorem var_value_iff_entry_binding :
    (∀ (file : String) (root : STree) (p : TPath) (s : Scope) (n : String) (v : Var),
        scope_for file root p = some s → lookupScope s n = some v →
        v.value.isSome = fromEntryHolder v.set ∧ v.value.isNone = isLambdaNode v.set)
    ∧ (lookupVar (scope_for "file" xRoot [0, 1]) "x").map Var.value = some none := by
  constructor
  · intro file root p s n v hs hl
    unfold scope_for at hs
    have hok : scopeOk s = true := scopeGo_ok file (chainOf root p) [] s rfl hs
    obtain ⟨pr, hmem, hpr⟩ := lookupScope_mem s n v hl
    have hv : varOk v = true := by
      have hall := (List.all_eq_true.mp hok) pr hmem
      rw [hpr] at hall
      exact hall
    unfold varOk at hv
    simp only [Bool.or_eq_true, Bool.and_eq_true] at hv
    rcases hv with ⟨h1, h2⟩ | ⟨h1, h2⟩
    · refine ⟨by rw [h1, h2], ?_⟩
      rw [fromEntryHolder_not_lambda v.set h2]
      cases hval : v.value with
      | none => rw [hval] at h1; exact absurd h1 (by simp)
      | some vv => simp
    · refine ⟨?_, by rw [h1, h2]⟩
      rw [isLambdaNode_not_entry v.set h2]
      cases hval : v.value with
      | none => simp
      | some vv => rw [hval] at h1; exact absurd h1 (by simp)
  · rfl

/-- Witness for C9 at the lambda example: the Var of `x` has an absent
value and a lambda scope node. -/
theorem var_value_iff_entry_binding_witness :
    xVar.value.isSome = fromEntryHolder xVar.set ∧ xVar.value.isNone = isLambdaNode xVar.set :=
  var_value_iff_entry_binding.1 "file" xRoot [0, 1] [("x", xVar)] "x" xVar rfl rfl

/-- `CursorInfo` from src/utils.rs: the attribute/selection path (outer
to inner, never including the cursor identifier) and the identifier
node under the cursor. -/
structure CursorInfo where
  path : List String
  ident : STree

/-- The Key branch of `ident_at`: walk the key-path segments, collecting
names until the segment equal to the cursor identifier node is reached;
reaching the end instead is the Rust `panic!` (modelled `none`,
unreachable for a tree the cursor identifier was located in). A segment
that fails `Ident::cast` aborts with `none` (the `?`). -/
def keyScan (identN : STree) : List STree → List String → Option (List String)
  | [], _ => none
  | item :: rest, acc =>
    if streeBeq item identN then some acc
    else
      match identCast item with
      | none => none
      | some nm => keyScan identN rest (acc ++ [nm])

/-- The `while let Some(new) = Select::cast(index.set()?)` loop of
`ident_at`: descend through nested selection nodes, pushing each inner
selection's index name; `index.set()` or `new.index()` or the
`Ident::cast` failing aborts with `none`. The fuel only bounds the
descent and exceeds the tree depth at every call site. -/
def selectLoop : Nat → STree → List String → Option (List String × STree)
  | 0, _, _ => none
  | fuel + 1, index, acc =>
    match (nodeChildren index).get? 0 with
    | none => none
    | some setN =>
      if kindOf setN = SKind.select ∧ isNodeC setN = true then
        match (nodeChildren setN).get? 1 with
        | none => none
        | some idxN =>
          match identCast idxN with
          | none => none
          | some nm => selectLoop fuel setN (acc ++ [nm])
      else some (acc, index)

/-- After the loop of the Select branch: if the terminal set expression
is not the cursor identifier itself, push its name too; then reverse to
outer-to-inner order. -/
def selectFinish (identN index : STree) (acc : List String) : Option (List String) :=
  match (nodeChildren index).get? 0 with
  | none => none
  | some setN =>
    if streeBeq setN identN then some acc.reverse
    else
      match identCast setN with
      | none => none
      | some nm => some ((acc ++ [nm]).reverse)

/-- Step 1 of `ident_at` for one candidate token: `Ident::cast` of the
token's parent node, yielding the identifier node's path, the node, and
its name. -/
def identCandidate (root : STree) (p : TPath) : Option (TPath × STree × String) :=
  match p with
  | [] => none
  | _ :: _ =>
    match nodeAtPath root p.dropLast with
    | none => none
    | some par => (identCast par).map (fun nm => (p.dropLast, par, nm))

/-- Step 2 of `ident_at`: dispatch on the identifier's parent (key path,
selection chain, or anything else). -/
def identDispatch (root : STree) (ip : TPath) (identN : STree) : Option CursorInfo :=
  match ip with
  | [] => some ⟨[], identN⟩
  | _ :: _ =>
    match nodeAtPath root ip.dropLast with
    | none => some ⟨[], identN⟩
    | some par =>
      if kindOf par = SKind.key ∧ isNodeC par = true then
        (keyScan identN (nodeChildren par) []).map (fun pth => ⟨pth, identN⟩)
      else if kindOf par = SKind.select ∧ isNodeC par = true then
        match selectLoop (streeSize par) par [] with
        | none => none
        | some (acc, index) =>
          match selectFinish identN index acc with
          | none => none
          | some pth => some ⟨pth, identN⟩
      else some ⟨[], identN⟩

/-- Rust `ident_at(root, offset)` from src/utils.rs: locate the token at
the offset (preferring, at a boundary, the left token's identifier
parent over the right one), cast its parent to an identifier, and
reconstruct the attribute/selection path. -/
def ident_at (root : STree) (offset : Nat) : Option CursorInfo :=
  (match tokenAtOffset root offset with
    | TokAt.noTok => none
    | TokAt.single p => identCandidate root p
    | TokAt.between l r =>
      (identCandidate root l).orElse (fun _ => identCandidate root r)).bind
    (fun c => identDispatch root c.1 c.2.1)

/-- Token `a` of the selection chain source `a.b.c`. -/
def abcTokA : STree := STree.leaf SKind.identTok "a" (0, 1)

/-- Identifier node of `a`. -/
def abcIdA : STree := STree.node SKind.ident (0, 1) [abcTokA]

/-- Identifier node of `b`. -/
def abcIdB : STree := STree.node SKind.ident (2, 3) [STree.leaf SKind.identTok "b" (2, 3)]

/-- Identifier node of `c`. -/
def abcIdC : STree := STree.node SKind.ident (4, 5) [STree.leaf SKind.identTok "c" (4, 5)]

/-- Inner selection node `a.b`. -/
def abcSelInner : STree :=
  STree.node SKind.select (0, 3) [abcIdA, STree.leaf SKind.dotTok "." (1, 2), abcIdB]

/-- Outer selection node `a.b.c`. -/
def abcSelOuter : STree :=
  STree.node SKind.select (0, 5) [abcSelInner, STree.leaf SKind.dotTok "." (3, 4), abcIdC]

/-- Root of the `a.b.c` tree. -/
def abcRoot : STree := STree.node SKind.root (0, 5) [abcSelOuter]

/-- C8: on `a.b.c`, `ident_at` at the offset of `b` (byte 2) yields
path `[a]`; at the offset of `a` (byte 0) yields the empty path — the
base of the chain is not a path segment; at the offset of `c` (byte 4)
yields `[a, b]`, outer to inner, never including the cursor identifier
itself. -/
theorem ident_at_abc_paths :
    (ident_at abcRoot 2).map CursorInfo.path = some ["a"] ∧
    (ident_at abcRoot 0).map CursorInfo.path = some [] ∧
    (ident_at abcRoot 4).map CursorInfo.path = some ["a", "b"] := by
  refine ⟨rfl, rfl, rfl⟩

/-- LSP range: start and stop positions (the Rust `Range { start, end }`
of `lsp_types`). -/
structure LspRange where
  start : Pos
  stop : Pos
deriving DecidableEq

/-- Rust `range(code, text_range)` from src/utils.rs: both ends through
`offset_to_pos`; a panic on an invalid end is modelled as `none`. -/
def lspRange (content : List Char) (sp : Nat × Nat) : Option LspRange :=
  match offset_to_pos content sp.1, offset_to_pos content sp.2 with
  | some a, some b => some ⟨a, b⟩
  | _, _ => none

/-- `SelectionRange` of lsp_types: a range and the optional next-outer
range, a singly linked chain from innermost to outermost. -/
inductive SelectionRange where
  | mk (range : LspRange) (parent : Option SelectionRange)

/-- The emission loop of `selection_ranges`: walk the ancestor list,
skipping an ancestor only when it EQUALS the previously emitted node
(the `last.as_ref() == Some(&parent)` check of the Rust code — node
equality, not span equality), and link each emitted range as the parent
of the previous one. -/
def selGo (content : List Char) : Option STree → List STree → Option SelectionRange
  | _, [] => none
  | last, t :: rest =>
    if (match last with
        | none => false
        | some l => streeBeq l t) = true then selGo content last rest
    else
      match lspRange content (spanOf t) with
      | none => none
      | some r => some (SelectionRange.mk r (selGo content (some t) rest))

/-- The ancestors of a token (its parent, then each further parent up to
the root), innermost first: the chain `node.ancestors()` yields for the
token returned by `left_biased`. -/
def ancTokenChain (root : STree) (p : TPath) : List STree :=
  ((List.range p.length).reverse.map (fun k => p.take k)).filterMap (nodeAtPath root)

/-- Rust `selection_ranges(root, content, pos)` from src/utils.rs. -/
def selection_ranges (root : STree) (content : List Char) (pos : Pos) :
    Option SelectionRange :=
  match lookup_pos content pos with
  | none => none
  | some off =>
    match leftBiased (tokenAtOffset root off) with
    | none => none
    | some p => selGo content none (ancTokenChain root p)

/-- Token of the one-identifier source `a`. -/
def aTok : STree := STree.leaf SKind.identTok "a" (0, 1)

/-- Identifier node wrapping the token, with the same span. -/
def aIdent : STree := STree.node SKind.ident (0, 1) [aTok]

/-- Root node, again with the same span as the identifier. -/
def aRoot : STree := STree.node SKind.root (0, 1) [aIdent]

/-- The span of the whole source `a` as an LSP range. -/
def aUnitRange : LspRange := ⟨⟨0, 0⟩, ⟨0, 1⟩⟩

/-- C4: on source `a` at position (0,0), the ancestor chain is the
identifier node and the root node, distinct nodes with identical spans;
`selection_ranges` emits BOTH — two consecutive entries with an
identical span — because its deduplication compares nodes, which are
always distinct along an ancestor chain, never spans. This refutes the
claim that consecutive coincident spans are collapsed into one entry. -/
theorem selection_ranges_dup_span :
    selection_ranges aRoot ['a'] ⟨0, 0⟩ =
      some (SelectionRange.mk aUnitRange (some (SelectionRange.mk aUnitRange none))) := rfl
